import Mathlib

/-!
Verification of `app-launch` (`src/main.rs`), a desktop-application launcher.
The program parses freedesktop `.desktop` descriptor files into an
`Application` registry, serializes the sorted names to an external menu
(chooser) process, interprets the chooser's output, and finally spawns the
selected application either directly or wrapped in a terminal emulator.

This file is a shallow embedding of that program: each Rust function that the
claims depend on is translated into an executable Lean definition, and the
claims are settled as theorems about those definitions.  Machine strings are
modelled as Lean `String` / `List Char`; raw process output is modelled as a
`List Nat` of bytes; the `HashMap` built by `collect()` is modelled
extensionally as a function `String → Option ApplicationBody` obtained by a
left fold of insertions (later insertions overwrite earlier ones, exactly as
`HashMap::collect` does).
-/

/-- Embeds `struct ApplicationBody` (main.rs lines 12–17): the descriptor path,
the placeholder-filtered exec tokens, and the `Terminal` flag. -/
structure ApplicationBody where
  path : String
  exec : List String
  term : Bool
deriving DecidableEq

/-- Embeds `struct Application` (main.rs lines 29–33). -/
structure Application where
  name : String
  body : ApplicationBody
deriving DecidableEq

/-- Embeds Rust `str::trim` on the character list of a string: drop Unicode
whitespace from both ends (the inputs exercised here are ASCII, where Lean's
`Char.isWhitespace` and Rust's `char::is_whitespace` agree). -/
def rustTrimList (cs : List Char) : List Char :=
  ((cs.dropWhile Char.isWhitespace).reverse.dropWhile Char.isWhitespace).reverse

/-- Embeds Rust `str::split_whitespace`: maximal runs of non-whitespace
characters, with no empty tokens.  The accumulator holds the current token
reversed. -/
def splitWhitespaceAux : List Char → List Char → List (List Char)
  | [], [] => []
  | [], acc => [acc.reverse]
  | c :: cs, [] =>
      if c.isWhitespace then splitWhitespaceAux cs []
      else splitWhitespaceAux cs [c]
  | c :: cs, acc =>
      if c.isWhitespace then acc.reverse :: splitWhitespaceAux cs []
      else splitWhitespaceAux cs (c :: acc)

/-- Embeds `Application::exec_from_str` (main.rs lines 43–50): trim the raw
exec string, split on whitespace, and drop every token that starts with `%`
(`s.starts_with("%")` for the one-character pattern `%` holds exactly when the
token's first character is `%`). -/
def exec_from_str (s : String) : List String :=
  (((splitWhitespaceAux (rustTrimList s.data) []).filter
      (fun w => w.head? ≠ some '%')).map String.mk)

/-- Embeds `freedesktop_entry_parser`'s `section("Desktop Entry").attr(k)`:
look up the first value bound to key `k` in the section's attribute list. -/
def attr (sec : List (String × String)) (k : String) : Option String :=
  (sec.find? (fun p => p.1 = k)).map (fun p => p.2)

/-- Embeds Rust `str::parse::<bool>`: exactly the strings `true` and `false`
parse; everything else is an error (`None`). -/
def parseRustBool (s : String) : Option Bool :=
  if s = "true" then some true
  else if s = "false" then some false
  else none

/-- Embeds Rust `str::to_lowercase` (ASCII-faithful: the values exercised by
the program's `Terminal` parsing are ASCII, where Rust's Unicode lowercasing
and `Char.toLower` agree). -/
def rustToLowercase (s : String) : String :=
  String.mk (s.data.map Char.toLower)

/-- Embeds `Application::from_file` (main.rs lines 52–80), applied to the
already-parsed `[Desktop Entry]` section of the descriptor at `path`:
- skip unless `NoDisplay` differs from the exact string `"true"`;
- skip unless `Type` is exactly `"Application"`;
- parse `Terminal` (default `"false"`, lowercased) as a boolean, and on a
  malformed value skip the whole file (the `?` on `.ok()?`);
- require both `Name` and `Exec`, then build the `Application` with the
  placeholder-filtered exec tokens. -/
def from_file (path : String) (sec : List (String × String)) : Option Application :=
  if attr sec "NoDisplay" ≠ some "true" then
    if attr sec "Type" = some "Application" then
      match parseRustBool (rustToLowercase ((attr sec "Terminal").getD "false")) with
      | none => none
      | some t =>
        match attr sec "Name", attr sec "Exec" with
        | some name, some execstr =>
            some ⟨name, ⟨path, exec_from_str execstr, t⟩⟩
        | _, _ => none
    else none
  else none

/-! ### The application registry (main.rs lines 157–161)

`apps_repos.into_iter().filter_map(Result::ok).flatten().map(|i| (i.name, i.body)).collect::<HashMap<_,_>>()`
inserts the `(name, body)` pairs left to right into a hash map; a later
insertion with the same key overwrites the earlier one.  The map is modelled
extensionally as `String → Option ApplicationBody`, built by a left fold of
single-key insertions. -/

/-- One `HashMap::insert`: bind `p.1` to `p.2`, preserving all other keys. -/
def insertKV (m : String → Option ApplicationBody) (p : String × ApplicationBody) :
    String → Option ApplicationBody :=
  fun n => if n = p.1 then some p.2 else m n

/-- Embeds `collect::<HashMap<_,_>>()` over a flattened pair list: left-to-right
insertion into the initially empty map. -/
def collectMap (l : List (String × ApplicationBody)) : String → Option ApplicationBody :=
  l.foldl insertKV (fun _ => none)

/-- The `.map(|i| (i.name, i.body))` step of the registry build. -/
def appPair (a : Application) : String × ApplicationBody := (a.name, a.body)

/-- Embeds the whole registry build from the per-directory application lists
(`filter_map(Result::ok)` has already dropped erroring directories, which
contribute no list): flatten in directory order, project to pairs, collect. -/
def registryOf (dirs : List (List Application)) : String → Option ApplicationBody :=
  collectMap (dirs.flatten.map appPair)

/-! ### Chooser stdin serialization (main.rs lines 163–171) -/

/-- Embeds `itertools`' `interleave`: alternate elements of the two lists,
starting with the first, appending the leftover tail when one runs out. -/
def interleave : List String → List String → List String
  | [], ys => ys
  | x :: xs, [] => x :: xs
  | x :: xs, y :: ys => x :: y :: interleave xs ys

/-- Embeds `Vec::<&str>::concat`: concatenation of all the pieces. -/
def concatAll : List String → String
  | [] => ""
  | s :: rest => s ++ concatAll rest

/-- Lexicographic `≤` on character lists compared by codepoint, the order
`Ord for str` induces on UTF-8 strings (byte-lexicographic comparison of
UTF-8 encodings coincides with codepoint-lexicographic comparison). -/
def listCharLeb : List Char → List Char → Bool
  | [], _ => true
  | _ :: _, [] => false
  | a :: as, b :: bs =>
    if a.toNat < b.toNat then true
    else if a.toNat = b.toNat then listCharLeb as bs
    else false

/-- The string comparison used by `app_names.sort()`. -/
def strLeb (a b : String) : Bool := listCharLeb a.data b.data

/-- Embeds main.rs lines 163–171: collect the registry's names (in arbitrary
hash order), `sort()` them (lexicographic `str` order), interleave with
`app_names.len()` newlines, and concatenate.  `Vec::sort` is a stable sort
over a total order whose equal elements are literally equal strings, so any
correct sorting algorithm gives the same list; it is modelled with
`List.insertionSort`. -/
def menuStdinOf (names : List String) : String :=
  concatAll (interleave (List.insertionSort (fun a b => strLeb a b = true) names)
    (List.replicate names.length "\n"))

/-! ### Chooser output interpretation (main.rs lines 198–217) -/

/-- True of a UTF-8 continuation byte (`0x80..=0xBF`). -/
def isCont (b : Nat) : Bool := 0x80 ≤ b && b < 0xC0

/-- Embeds `std::str::from_utf8`: strict UTF-8 decoding of a byte list,
rejecting continuation-byte starts, overlong encodings, surrogates, and
codepoints above `0x10FFFF`, exactly as Rust does. -/
def utf8Decode : List Nat → Option (List Char)
  | [] => some []
  | b :: rest =>
    if b < 0x80 then
      (utf8Decode rest).map (fun cs => Char.ofNat b :: cs)
    else if b < 0xC2 then none
    else if b < 0xE0 then
      match rest with
      | b2 :: rest2 =>
        if isCont b2 then
          (utf8Decode rest2).map (fun cs => Char.ofNat ((b - 0xC0) * 0x40 + (b2 - 0x80)) :: cs)
        else none
      | [] => none
    else if b < 0xF0 then
      match rest with
      | b2 :: b3 :: rest3 =>
        if (if b = 0xE0 then 0xA0 else 0x80) ≤ b2 &&
            b2 < (if b = 0xED then 0xA0 else 0xC0) && isCont b3 then
          (utf8Decode rest3).map (fun cs =>
            Char.ofNat ((b - 0xE0) * 0x1000 + (b2 - 0x80) * 0x40 + (b3 - 0x80)) :: cs)
        else none
      | _ => none
    else if b < 0xF5 then
      match rest with
      | b2 :: b3 :: b4 :: rest4 =>
        if (if b = 0xF0 then 0x90 else 0x80) ≤ b2 &&
            b2 < (if b = 0xF4 then 0x90 else 0xC0) && isCont b3 && isCont b4 then
          (utf8Decode rest4).map (fun cs =>
            Char.ofNat ((b - 0xF0) * 0x40000 + (b2 - 0x80) * 0x1000 +
              (b3 - 0x80) * 0x40 + (b4 - 0x80)) :: cs)
        else none
      | _ => none
    else none

/-- Outcome of the program after `menu_process.wait_with_output()` returns:
either an `exit(0)` (cancellation), an `exit(1)` (wait error), a Rust panic
(`unwrap` failure or `HashMap` index on a missing key), or the selected
name/body pair handed on to the launch dispatcher. -/
inductive WaitOutcome where
  | exitZero
  | exitOne
  | panicked
  | chosen (name : String) (body : ApplicationBody)
deriving DecidableEq

/-- Embeds main.rs lines 198–217.  `waitOk` is whether `wait_with_output()`
returned `Ok` (its `Err` branch prints a diagnostic and exits 1); `success`
is `o.status.success()`; `stdout` is the captured byte stream.
A non-success status exits 0; a non-UTF-8 stdout panics
(`from_utf8(..).unwrap()`); an output that trims to empty exits 0; otherwise
the trimmed text is looked up in the registry with `apps_map[&selected]`,
which panics when the key is absent. -/
def afterWait (reg : List (List Application)) (waitOk success : Bool)
    (stdout : List Nat) : WaitOutcome :=
  if waitOk = false then .exitOne
  else if success = false then .exitZero
  else
    match utf8Decode stdout with
    | none => .panicked
    | some cs =>
      let sel := String.mk (rustTrimList cs)
      if sel = "" then .exitZero
      else
        match registryOf reg sel with
        | none => .panicked
        | some b => .chosen sel b

/-! ### Launch dispatch (main.rs lines 219–262) -/

/-- Embeds main.rs lines 220–231: the terminal emulator is the explicit
`--term` override when given, else `$TERM` when set, else `"xterm"`; the
second component records whether the `could not infer terminal emulator`
warning is printed (exactly in the fallback case). -/
def resolveTerminal (override envTerm : Option String) : String × Bool :=
  match override with
  | some t => (t, false)
  | none =>
    match envTerm with
    | some t => (t, false)
    | none => ("xterm", true)

/-- Embeds the dispatch branches (main.rs lines 219–262) as the full spawned
command line (program followed by its arguments).  With `term` set the command
is `<terminal_emulator> -e <exec...>`; otherwise it is
`Command::new(&exec[0])` with arguments `exec[1..]`, which panics (`none`)
when `exec` is empty. -/
def dispatchArgv (b : ApplicationBody) (override envTerm : Option String) :
    Option (List String) :=
  if b.term then
    some ((resolveTerminal override envTerm).1 :: "-e" :: b.exec)
  else
    match b.exec with
    | [] => none
    | c :: rest => some (c :: rest)

/-! ### Helper lemmas about the registry map -/

/-- Right-biased union on a single key: the second map's binding wins. -/
def orOverride (a b : Option ApplicationBody) : Option ApplicationBody :=
  match b with
  | some x => some x
  | none => a

theorem foldl_insertKV (l : List (String × ApplicationBody))
    (m : String → Option ApplicationBody) (n : String) :
    (l.foldl insertKV m) n = orOverride (m n) (collectMap l n) := by
  induction l generalizing m with
  | nil => simp [collectMap, orOverride]
  | cons p l ih =>
    show (l.foldl insertKV (insertKV m p)) n = _
    rw [ih]
    have hc : collectMap (p :: l) n =
        orOverride (insertKV (fun _ => none) p n) (collectMap l n) := by
      show (l.foldl insertKV (insertKV (fun _ => none) p)) n = _
      rw [ih]
    rw [hc]
    cases collectMap l n with
    | some b => simp [orOverride]
    | none =>
      simp only [orOverride, insertKV]
      split <;> simp [orOverride]

theorem collectMap_cons (p : String × ApplicationBody)
    (l : List (String × ApplicationBody)) (n : String) :
    collectMap (p :: l) n =
      orOverride (if n = p.1 then some p.2 else none) (collectMap l n) := by
  show (l.foldl insertKV (insertKV (fun _ => none) p)) n = _
  rw [foldl_insertKV]
  rfl

theorem collectMap_append (l₁ l₂ : List (String × ApplicationBody)) (n : String) :
    collectMap (l₁ ++ l₂) n = orOverride (collectMap l₁ n) (collectMap l₂ n) := by
  show ((l₁ ++ l₂).foldl insertKV (fun _ => none)) n = _
  rw [List.foldl_append, foldl_insertKV]
  rfl

theorem collectMap_eq_none_iff (l : List (String × ApplicationBody)) (n : String) :
    collectMap l n = none ↔ n ∉ l.map Prod.fst := by
  induction l with
  | nil => simp [collectMap]
  | cons p l ih =>
    obtain ⟨pn, pb⟩ := p
    rw [collectMap_cons]
    cases h : collectMap l n with
    | some b =>
      have hm : n ∈ l.map Prod.fst := by
        by_contra hx
        rw [ih.mpr hx] at h
        cases h
      simp [orOverride, hm]
    | none =>
      have hm : n ∉ l.map Prod.fst := ih.mp h
      by_cases he : n = pn
      · simp [orOverride, he]
      · simp [orOverride, he, hm]

theorem collectMap_eq_some_iff (l : List (String × ApplicationBody)) (n : String)
    (hnd : (l.map Prod.fst).Nodup) :
    ∀ b : ApplicationBody, collectMap l n = some b ↔ (n, b) ∈ l := by
  induction l with
  | nil => simp [collectMap]
  | cons p l ih =>
    obtain ⟨pn, pb⟩ := p
    simp only [List.map_cons, List.nodup_cons] at hnd
    intro b
    rw [collectMap_cons]
    cases hc : collectMap l n with
    | some b' =>
      have hm' : (n, b') ∈ l := ((ih hnd.2) b').mp hc
      have hnmem : n ∈ l.map Prod.fst := List.mem_map.mpr ⟨(n, b'), hm', rfl⟩
      constructor
      · intro h
        simp only [orOverride] at h
        injection h with h
        subst h
        exact List.mem_cons_of_mem _ hm'
      · intro h
        rcases List.mem_cons.mp h with h | h
        · exfalso
          have hn : n = pn := congrArg Prod.fst h
          exact hnd.1 (hn ▸ hnmem)
        · have h2 : collectMap l n = some b := ((ih hnd.2) b).mpr h
          rw [hc] at h2
          injection h2 with h2
          subst h2
          simp [orOverride]
    | none =>
      constructor
      · intro h
        simp only [orOverride] at h
        by_cases he : n = pn
        · rw [if_pos he] at h
          injection h with hb
          rw [he, ← hb]
          exact List.mem_cons_self _ _
        · rw [if_neg he] at h
          cases h
      · intro h
        rcases List.mem_cons.mp h with h | h
        · have hn : n = pn := congrArg Prod.fst h
          have hb : b = pb := congrArg Prod.snd h
          simp [orOverride, hn, hb]
        · exfalso
          have h2 := ((ih hnd.2) b).mpr h
          rw [hc] at h2
          cases h2

theorem collectMap_perm {l l' : List (String × ApplicationBody)} (h : l.Perm l')
    (hnd : (l.map Prod.fst).Nodup) (n : String) :
    collectMap l n = collectMap l' n := by
  have hnd' : (l'.map Prod.fst).Nodup := ((h.map Prod.fst).nodup_iff).mp hnd
  cases hc : collectMap l n with
  | some b =>
    have hm : (n, b) ∈ l := ((collectMap_eq_some_iff l n hnd) b).mp hc
    exact (((collectMap_eq_some_iff l' n hnd') b).mpr (h.mem_iff.mp hm)).symm
  | none =>
    have hm : n ∉ l.map Prod.fst := (collectMap_eq_none_iff l n).mp hc
    have hm' : n ∉ l'.map Prod.fst := fun hx =>
      hm (((h.map Prod.fst).mem_iff).mpr hx)
    exact ((collectMap_eq_none_iff l' n).mpr hm').symm

theorem collectMap_flatten_none (dirs : List (List Application)) (n : String)
    (h : ∀ d ∈ dirs, collectMap (d.map appPair) n = none) :
    collectMap (dirs.flatten.map appPair) n = none := by
  induction dirs with
  | nil => simp [collectMap]
  | cons d rest ih =>
    rw [List.flatten_cons, List.map_append, collectMap_append]
    rw [h d (List.mem_cons_self d rest),
      ih (fun d' hd' => h d' (List.mem_cons_of_mem d hd'))]
    rfl

/-! ### Helper lemmas about the chooser serialization -/

theorem listCharLeb_trans (as bs cs : List Char) (h₁ : listCharLeb as bs = true)
    (h₂ : listCharLeb bs cs = true) : listCharLeb as cs = true := by
  induction as generalizing bs cs with
  | nil => simp [listCharLeb]
  | cons a as ih =>
    cases bs with
    | nil => simp [listCharLeb] at h₁
    | cons b bs =>
      cases cs with
      | nil => simp [listCharLeb] at h₂
      | cons c cs =>
        simp only [listCharLeb] at h₁ h₂ ⊢
        split at h₁
        · split at h₂
          · have : a.toNat < c.toNat := by omega
            simp [this]
          · split at h₂
            · have : a.toNat < c.toNat := by omega
              simp [this]
            · simp at h₂
        · split at h₁
          · split at h₂
            · have : a.toNat < c.toNat := by omega
              simp [this]
            · split at h₂
              · have he : a.toNat = c.toNat := by omega
                have hlt : ¬ a.toNat < c.toNat := by omega
                simp only [if_neg hlt, if_pos he]
                exact ih bs cs h₁ h₂
              · simp at h₂
          · simp at h₁

theorem listCharLeb_total (as bs : List Char) :
    listCharLeb as bs = true ∨ listCharLeb bs as = true := by
  induction as generalizing bs with
  | nil => left; simp [listCharLeb]
  | cons a as ih =>
    cases bs with
    | nil => right; simp [listCharLeb]
    | cons b bs =>
      simp only [listCharLeb]
      rcases Nat.lt_trichotomy a.toNat b.toNat with h | h | h
      · left; simp [h]
      · rcases ih bs with hr | hr
        · left
          simp [h, hr, Nat.lt_irrefl]
        · right
          simp [h.symm, hr, Nat.lt_irrefl]
      · right
        simp [h]

theorem concatAll_interleave_newlines (l : List String) :
    concatAll (interleave l (List.replicate l.length "\n")) =
      concatAll (l.map (fun n => n ++ "\n")) := by
  induction l with
  | nil => rfl
  | cons x xs ih =>
    show concatAll (interleave (x :: xs) ("\n" :: List.replicate xs.length "\n")) = _
    show x ++ ("\n" ++ concatAll (interleave xs (List.replicate xs.length "\n"))) = _
    rw [ih]
    show _ = (x ++ "\n") ++ concatAll (xs.map (fun n => n ++ "\n"))
    rw [String.append_assoc]

/-! ### Parser facts shared by several claims -/

theorem from_file_some_inv (path : String) (sec : List (String × String))
    (a : Application) (h : from_file path sec = some a) :
    attr sec "NoDisplay" ≠ some "true" ∧
    attr sec "Type" = some "Application" ∧
    attr sec "Name" = some a.name ∧
    (∃ es, attr sec "Exec" = some es ∧ a.body.exec = exec_from_str es) ∧
    a.body.path = path ∧
    parseRustBool (rustToLowercase ((attr sec "Terminal").getD "false")) = some a.body.term := by
  simp only [from_file] at h
  split at h
  · rename_i h1
    split at h
    · rename_i h2
      split at h
      · cases h
      · rename_i t ht
        split at h
        · rename_i name execstr hname hexec
          injection h with h
          subst h
          exact ⟨h1, h2, hname, ⟨execstr, hexec, rfl⟩, rfl, ht⟩
        · cases h
    · cases h
  · cases h

theorem from_file_none_of_term_bad (path : String) (sec : List (String × String))
    (h : parseRustBool (rustToLowercase ((attr sec "Terminal").getD "false")) = none) :
    from_file path sec = none := by
  simp only [from_file, h]
  split
  · split
    · rfl
    · rfl
  · rfl

/-- C1: the claim asserts that a descriptor whose `Exec` line is empty, or
becomes empty after placeholder-token removal, is rejected before an
`Application` is constructed.  The code refutes it: a descriptor with
`Exec=%u` (and one with a whitespace-only `Exec`) is parsed into a registered
`Application` whose `exec` list is empty. -/
theorem C1_empty_exec_counterexample :
    from_file "/a" [("Type", "Application"), ("Name", "X"), ("Exec", "%u")]
      = some ⟨"X", ⟨"/a", [], false⟩⟩ ∧
    from_file "/b" [("Type", "Application"), ("Name", "Y"), ("Exec", " ")]
      = some ⟨"Y", ⟨"/b", [], false⟩⟩ := by decide

/-- C1 (amended): every constructed `Application` comes from a descriptor in
which the `Exec` key is present, and its `exec` is the placeholder-filtered
tokenization of that value — which may be empty; a descriptor with no `Exec`
key at all is rejected before construction. -/
theorem C1_exec_presence_amended :
    ∀ (path : String) (sec : List (String × String)),
      (∀ a : Application, from_file path sec = some a →
        ∃ es, attr sec "Exec" = some es ∧ a.body.exec = exec_from_str es) ∧
      (attr sec "Exec" = none → from_file path sec = none) := by
  intro path sec
  constructor
  · intro a h
    exact (from_file_some_inv path sec a h).2.2.2.1
  · intro hE
    cases hf : from_file path sec with
    | none => rfl
    | some a =>
      obtain ⟨es, hes, -⟩ := (from_file_some_inv path sec a hf).2.2.2.1
      rw [hE] at hes
      cases hes

/-- C1 (amended) witness at a concrete descriptor with `Exec=%u`. -/
theorem C1_exec_presence_amended_witness :
    ∃ es, attr [("Type", "Application"), ("Name", "X"), ("Exec", "%u")] "Exec" = some es ∧
      (ApplicationBody.mk "/a" [] false).exec = exec_from_str es :=
  (C1_exec_presence_amended "/a" [("Type", "Application"), ("Name", "X"), ("Exec", "%u")]).1
    ⟨"X", ⟨"/a", [], false⟩⟩ (by decide)

/-- C2: `Terminal` parsing is case-insensitive textual boolean — an absent
field yields `term = false`; a present value lowercasing to `"true"` yields
`true` and to `"false"` yields `false`; any other present value makes the
parser return no `Application` at all. -/
theorem C2_terminal_parsing :
    ∀ (path : String) (sec : List (String × String)),
      (∀ a : Application, from_file path sec = some a →
        ((attr sec "Terminal" = none → a.body.term = false) ∧
         (∀ v, attr sec "Terminal" = some v →
            ((rustToLowercase v = "true" → a.body.term = true) ∧
             (rustToLowercase v = "false" → a.body.term = false))))) ∧
      (∀ v, attr sec "Terminal" = some v → rustToLowercase v ≠ "true" →
        rustToLowercase v ≠ "false" → from_file path sec = none) := by
  intro path sec
  constructor
  · intro a h
    have hterm := (from_file_some_inv path sec a h).2.2.2.2.2
    constructor
    · intro hT
      rw [hT] at hterm
      have he : parseRustBool (rustToLowercase ((none : Option String).getD "false"))
          = some false := by decide
      rw [he] at hterm
      exact (Option.some.inj hterm).symm
    · intro v hv
      rw [hv] at hterm
      constructor
      · intro htrue
        rw [show ((some v).getD "false") = v from rfl, htrue] at hterm
        have he : parseRustBool "true" = some true := by decide
        rw [he] at hterm
        exact (Option.some.inj hterm).symm
      · intro hfalse
        rw [show ((some v).getD "false") = v from rfl, hfalse] at hterm
        have he : parseRustBool "false" = some false := by decide
        rw [he] at hterm
        exact (Option.some.inj hterm).symm
  · intro v hv htrue hfalse
    apply from_file_none_of_term_bad
    rw [hv]
    show parseRustBool (rustToLowercase v) = none
    simp only [parseRustBool]
    rw [if_neg htrue, if_neg hfalse]

/-- C2 witness: absent `Terminal` parses with `term = false`, and
`Terminal=yes` makes the whole descriptor be skipped. -/
theorem C2_terminal_parsing_witness :
    (Application.mk "X" ⟨"/a", ["x"], false⟩).body.term = false ∧
    from_file "/a" [("Type", "Application"), ("Terminal", "yes"), ("Name", "X"), ("Exec", "x")]
      = none := by
  constructor
  · exact ((C2_terminal_parsing "/a" [("Type", "Application"), ("Name", "X"), ("Exec", "x")]).1
      ⟨"X", ⟨"/a", ["x"], false⟩⟩ (by decide)).1 (by decide)
  · exact (C2_terminal_parsing "/a"
      [("Type", "Application"), ("Terminal", "yes"), ("Name", "X"), ("Exec", "x")]).2
      "yes" (by decide) (by decide) (by decide)

/-- C10: the visibility filter compares `NoDisplay` against the exact string
`"true"`; a descriptor with `NoDisplay = "true"` is skipped, while one whose
`NoDisplay` is any other spelling is treated as visible and can still produce
a registered `Application`. -/
theorem C10_nodisplay_exact_match :
    ∀ (path : String) (sec : List (String × String)),
      (attr sec "NoDisplay" = some "true" → from_file path sec = none) ∧
      (∀ v n e, attr sec "NoDisplay" = some v → v ≠ "true" →
        attr sec "Type" = some "Application" → attr sec "Terminal" = none →
        attr sec "Name" = some n → attr sec "Exec" = some e →
        from_file path sec = some ⟨n, ⟨path, exec_from_str e, false⟩⟩) := by
  intro path sec
  constructor
  · intro hND
    simp [from_file, hND]
  · intro v n e hND hv hT hTerm hN hE
    have hc : ¬ (attr sec "NoDisplay" = some "true") := by
      rw [hND]
      intro hx
      exact hv (Option.some.inj hx)
    have hfb : parseRustBool (rustToLowercase ((attr sec "Terminal").getD "false"))
        = some false := by
      rw [hTerm]
      decide
    simp only [from_file, hfb, hT, hN, hE]
    rw [if_pos hc]
    simp

/-- C10 witness: `NoDisplay=True` (capital T) still yields a registered
application. -/
theorem C10_nodisplay_exact_match_witness :
    from_file "/a" [("NoDisplay", "True"), ("Type", "Application"), ("Name", "X"), ("Exec", "x")]
      = some ⟨"X", ⟨"/a", exec_from_str "x", false⟩⟩ :=
  (C10_nodisplay_exact_match "/a"
    [("NoDisplay", "True"), ("Type", "Application"), ("Name", "X"), ("Exec", "x")]).2
    "True" "X" "x" (by decide) (by decide) (by decide) (by decide) (by decide) (by decide)

/-- C3: after the chooser is waited on, a non-success exit status, or a
captured stdout that is empty after trimming surrounding whitespace, makes the
program exit with status 0 without launching any application. -/
theorem C3_cancellation :
    ∀ (reg : List (List Application)) (bs : List Nat),
      afterWait reg true false bs = WaitOutcome.exitZero ∧
      (∀ cs : List Char, utf8Decode bs = some cs → rustTrimList cs = [] →
        afterWait reg true true bs = WaitOutcome.exitZero) := by
  intro reg bs
  constructor
  · rfl
  · intro cs hdec htrim
    simp only [afterWait, hdec, htrim]
    simp

/-- C3 witness at a whitespace-only chooser stdout and at a failure status. -/
theorem C3_cancellation_witness :
    afterWait [] true false [0x20] = WaitOutcome.exitZero ∧
    afterWait [] true true [0x20] = WaitOutcome.exitZero :=
  ⟨(C3_cancellation [] [0x20]).1,
    (C3_cancellation [] [0x20]).2 [' '] (by decide) (by decide)⟩

/-- C7: the claim asserts that a successful chooser exit with non-UTF-8 output
terminates the program with exit status 1 and a diagnostic.  The code refutes
it: `std::str::from_utf8(&o.stdout).unwrap()` panics on the byte `0xFF`, which
is not the diagnostic-plus-`exit(1)` path. -/
theorem C7_nonutf8_counterexample :
    afterWait [] true true [0xFF] = WaitOutcome.panicked ∧
    WaitOutcome.panicked ≠ WaitOutcome.exitOne := by decide

/-- C7 (amended): if the chooser exits successfully but its captured output is
not decodable as UTF-8, the program panics (an uncontrolled `unwrap` abort,
Rust exit status 101) rather than exiting with status 1. -/
theorem C7_nonutf8_panics_amended :
    ∀ (reg : List (List Application)) (bs : List Nat),
      utf8Decode bs = none → afterWait reg true true bs = WaitOutcome.panicked := by
  intro reg bs h
  simp only [afterWait, h]
  simp

/-- C7 (amended) witness at the invalid byte `0xC0`. -/
theorem C7_nonutf8_panics_amended_witness :
    afterWait [] true true [0xC0] = WaitOutcome.panicked :=
  C7_nonutf8_panics_amended [] [0xC0] (by decide)

/-- C9: when the chooser's trimmed stdout is non-empty but is not a key of
the registry, the `apps_map[&selected_program]` lookup panics rather than
exiting with a controlled diagnostic. -/
theorem C9_missing_key_panics :
    ∀ (reg : List (List Application)) (bs : List Nat) (cs : List Char),
      utf8Decode bs = some cs → rustTrimList cs ≠ [] →
      registryOf reg (String.mk (rustTrimList cs)) = none →
      afterWait reg true true bs = WaitOutcome.panicked := by
  intro reg bs cs hdec hne hreg
  have hsel : ¬ (String.mk (rustTrimList cs) = "") := by
    intro hx
    apply hne
    simpa using congrArg String.data hx
  simp only [afterWait, hdec, hreg]
  simp [hsel]

/-- C9 witness: chooser output `"x"` against the empty registry panics. -/
theorem C9_missing_key_panics_witness :
    afterWait [] true true [0x78] = WaitOutcome.panicked :=
  C9_missing_key_panics [] [0x78] ['x'] (by decide) (by decide) (by decide)

/-- Distributing `collectMap` over an append of per-directory application
lists after the `appPair` projection. -/
theorem collectMap_map_append (l₁ l₂ : List Application) (n : String) :
    collectMap ((l₁ ++ l₂).map appPair) n =
      orOverride (collectMap (l₁.map appPair) n) (collectMap (l₂.map appPair) n) := by
  rw [List.map_append, collectMap_append]

/-- C4: the byte stream written to the chooser's stdin is exactly the
registry's names sorted in codepoint-lexicographic order, each name followed
by a single newline (trailing newline included, no other formatting); in
particular `{"Zed", "Atom", "vim"}` serializes to `"Atom\nZed\nvim\n"` and the
empty registry serializes to the empty stream. -/
theorem C4_chooser_stdin :
    ∀ names : List String,
      menuStdinOf names =
        concatAll ((List.insertionSort (fun a b => strLeb a b = true) names).map
          (fun n => n ++ "\n")) ∧
      List.Sorted (fun a b => strLeb a b = true)
        (List.insertionSort (fun a b => strLeb a b = true) names) ∧
      (List.insertionSort (fun a b => strLeb a b = true) names).Perm names ∧
      menuStdinOf ["Zed", "Atom", "vim"] = "Atom\nZed\nvim\n" ∧
      menuStdinOf [] = "" := by
  intro names
  refine ⟨?_, ?_, List.perm_insertionSort _ _, by decide, by decide⟩
  · show concatAll (interleave (List.insertionSort (fun a b => strLeb a b = true) names)
      (List.replicate names.length "\n")) = _
    rw [show names.length
        = (List.insertionSort (fun a b => strLeb a b = true) names).length
      from (List.length_insertionSort _ _).symm]
    exact concatAll_interleave_newlines _
  · haveI htot : IsTotal String (fun a b => strLeb a b = true) :=
      ⟨fun a b => listCharLeb_total a.data b.data⟩
    haveI htr : IsTrans String (fun a b => strLeb a b = true) :=
      ⟨fun a b c hab hbc => listCharLeb_trans a.data b.data c.data hab hbc⟩
    exact List.sorted_insertionSort _ _

/-- C5: registry construction merges per-directory application lists in
directory-processing order with last-write-wins — if directory `A` is
processed before directory `B`, both yield name `n`, and no directory after
`B` yields `n`, then the final registry maps `n` to the body from `B`; in
particular, with exactly `A` then `B`, `B`'s body wins. -/
theorem C5_last_write_wins :
    ∀ (pre : List (List Application)) (A : List Application)
      (mid : List (List Application)) (B : List Application)
      (post : List (List Application)) (n : String) (bA bB : ApplicationBody),
      collectMap (A.map appPair) n = some bA →
      collectMap (B.map appPair) n = some bB →
      (∀ d ∈ post, collectMap (d.map appPair) n = none) →
      registryOf (pre ++ A :: (mid ++ B :: post)) n = some bB := by
  intro pre A mid B post n bA bB _ hB hpost
  show collectMap ((pre ++ A :: (mid ++ B :: post)).flatten.map appPair) n = some bB
  rw [show (pre ++ A :: (mid ++ B :: post)).flatten
      = pre.flatten ++ (A ++ (mid.flatten ++ (B ++ post.flatten))) from by
    simp [List.flatten_append, List.flatten_cons]]
  rw [collectMap_map_append, collectMap_map_append, collectMap_map_append,
    collectMap_map_append, hB, collectMap_flatten_none post n hpost]
  simp [orOverride]

/-- C5 witness: directory `A` binds `Editor` to one body, later directory `B`
binds it to another; the registry keeps `B`'s body. -/
theorem C5_last_write_wins_witness :
    registryOf [[⟨"Editor", ⟨"/a", ["a"], false⟩⟩], [⟨"Editor", ⟨"/b", ["b"], false⟩⟩]]
      "Editor" = some ⟨"/b", ["b"], false⟩ := by
  have h := C5_last_write_wins [] [⟨"Editor", ⟨"/a", ["a"], false⟩⟩] []
    [⟨"Editor", ⟨"/b", ["b"], false⟩⟩] [] "Editor"
    ⟨"/a", ["a"], false⟩ ⟨"/b", ["b"], false⟩ (by decide) (by decide) (by simp)
  simpa using h

/-- C8: the claim asserts the final registry is independent of the order in
which each directory's entries are enumerated.  The code refutes it: when one
directory contains two descriptors with the same name, the enumeration order
decides which body survives `collect()`, so two permuted enumerations of the
same directory give different registries. -/
theorem C8_enumeration_order_counterexample :
    ([⟨"X", ⟨"/a", ["a"], false⟩⟩, ⟨"X", ⟨"/b", ["b"], false⟩⟩] : List Application).Perm
      [⟨"X", ⟨"/b", ["b"], false⟩⟩, ⟨"X", ⟨"/a", ["a"], false⟩⟩] ∧
    registryOf [[⟨"X", ⟨"/a", ["a"], false⟩⟩, ⟨"X", ⟨"/b", ["b"], false⟩⟩]] "X" ≠
      registryOf [[⟨"X", ⟨"/b", ["b"], false⟩⟩, ⟨"X", ⟨"/a", ["a"], false⟩⟩]] "X" :=
  ⟨List.Perm.swap _ _ _, by decide⟩

/-- C8 (amended): when every directory's parsed applications carry pairwise
distinct names, the registry is deterministic in the directory contents alone
— re-enumerating each directory in any order produces the same final
name-to-body mapping. -/
theorem C8_registry_determinism :
    ∀ (dirs dirs' : List (List Application)),
      List.Forall₂ (fun d d' => d.Perm d') dirs dirs' →
      (∀ d ∈ dirs, (d.map Application.name).Nodup) →
      ∀ n, registryOf dirs n = registryOf dirs' n := by
  intro dirs dirs' hperm
  induction hperm with
  | nil =>
    intro _ n
    rfl
  | @cons d d' ds ds' hd htl ih =>
    intro hnd n
    show collectMap ((d :: ds).flatten.map appPair) n
      = collectMap ((d' :: ds').flatten.map appPair) n
    rw [List.flatten_cons, List.flatten_cons, collectMap_map_append, collectMap_map_append]
    have h1 : collectMap (d.map appPair) n = collectMap (d'.map appPair) n := by
      apply collectMap_perm (hd.map appPair)
      have hkeys : (d.map appPair).map Prod.fst = d.map Application.name := by
        rw [List.map_map]
        rfl
      rw [hkeys]
      exact hnd d (List.mem_cons_self _ _)
    have h2 : collectMap (ds.flatten.map appPair) n
        = collectMap (ds'.flatten.map appPair) n :=
      ih (fun d₀ hd₀ => hnd d₀ (List.mem_cons_of_mem _ hd₀)) n
    rw [h1, h2]

/-- C8 (amended) witness: a directory enumerated in two different orders, with
distinct names, yields the same registry at a queried name. -/
theorem C8_registry_determinism_witness :
    registryOf [[⟨"A", ⟨"/a", ["a"], false⟩⟩, ⟨"B", ⟨"/b", ["b"], false⟩⟩]] "A" =
      registryOf [[⟨"B", ⟨"/b", ["b"], false⟩⟩, ⟨"A", ⟨"/a", ["a"], false⟩⟩]] "A" := by
  apply C8_registry_determinism
  · exact List.Forall₂.cons (List.Perm.swap _ _ _) List.Forall₂.nil
  · intro d hd
    rw [List.mem_singleton.mp hd]
    decide

/-- C6: launch dispatch routing — with `term = false` the spawned command line
is exactly `exec[0]` with arguments `exec[1..]` (that is, `exec` itself); with
`term = true` it is `<terminal_emulator> -e <exec...>`, where the terminal
emulator is the `--term` override if provided, else `$TERM` if set, else the
fallback `"xterm"` accompanied by a warning. -/
theorem C6_dispatch_routing :
    ∀ (b : ApplicationBody) (ov envTerm : Option String),
      (b.term = false → b.exec ≠ [] → dispatchArgv b ov envTerm = some b.exec) ∧
      (b.term = true → dispatchArgv b ov envTerm =
        some ((ov.getD (envTerm.getD "xterm")) :: "-e" :: b.exec)) ∧
      (∀ t, ov = some t → resolveTerminal ov envTerm = (t, false)) ∧
      (∀ t, ov = none → envTerm = some t → resolveTerminal ov envTerm = (t, false)) ∧
      (ov = none → envTerm = none → resolveTerminal ov envTerm = ("xterm", true)) := by
  intro b ov envTerm
  refine ⟨?_, ?_, ?_, ?_, ?_⟩
  · intro ht hne
    cases hE : b.exec with
    | nil => exact absurd hE hne
    | cons c rest => simp [dispatchArgv, ht, hE]
  · intro ht
    cases ov <;> cases envTerm <;> simp [dispatchArgv, resolveTerminal, ht]
  · intro t h
    subst h
    rfl
  · intro t h1 h2
    subst h1
    subst h2
    rfl
  · intro h1 h2
    subst h1
    subst h2
    rfl

/-- C6 witness: `htop` launches directly when `term = false`; with
`term = true` and override `alacritty` it launches as `alacritty -e htop`;
with neither override nor `$TERM` the fallback is `xterm` with a warning. -/
theorem C6_dispatch_routing_witness :
    dispatchArgv ⟨"/h", ["htop"], false⟩ none none = some ["htop"] ∧
    dispatchArgv ⟨"/h", ["htop"], true⟩ (some "alacritty") none
      = some ["alacritty", "-e", "htop"] ∧
    resolveTerminal none none = ("xterm", true) := by
  refine ⟨(C6_dispatch_routing ⟨"/h", ["htop"], false⟩ none none).1 rfl (by decide), ?_,
    (C6_dispatch_routing ⟨"/h", ["htop"], false⟩ none none).2.2.2.2 rfl rfl⟩
  have h := (C6_dispatch_routing ⟨"/h", ["htop"], true⟩ (some "alacritty") none).2.1 rfl
  simpa using h
